import Mathlib

/-!
Verification of the metadata synchronization engine of the
external-dns-cern-cloud-webhook repository (package `internal/cern`:
`metadata.go` and `manager.go`).

Strings are modelled as `List Char` (Go compares and slices strings by
bytes; all byte positions relevant here fall on UTF-8 character
boundaries because the patterns involved — `","`, `"."`, `"--load-"`,
`"landb-alias"` — are pure ASCII, so character positions and byte
positions coincide for every occurrence of these patterns).
Go maps are modelled as association lists with unique keys; all
map-level statements are phrased on membership / lookup, which is
independent of Go's unspecified map iteration order.
-/

namespace CernWebhook

/-- Strings as lists of characters. -/
abbrev Str := List Char

/-! ## Go string primitives used by the source -/

/-- Lexicographic byte order on strings, as used by Go `sort.Strings`
(for UTF-8 encoded strings, bytewise order coincides with
codepoint-lexicographic order). `strLe a b` means `a ≤ b`. -/
def strLe : Str → Str → Bool
  | [], _ => true
  | _ :: _, [] => false
  | a :: as, b :: bs => if a < b then true else if b < a then false else strLe as bs

/-- Go `strings.TrimSuffix(s, ".")`: removes one trailing dot if present. -/
def trimDot (s : Str) : Str :=
  if s.getLast? = some '.' then s.dropLast else s

/-- Go `unicode.IsSpace`: the White_Space Unicode property
(`\t \n \v \f \r space NEL NBSP` plus the higher space codepoints). -/
def goIsSpace (c : Char) : Bool :=
  c = ' ' || c = '\t' || c = '\n' || c = Char.ofNat 11 || c = Char.ofNat 12 ||
  c = '\r' || c = Char.ofNat 0x85 || c = Char.ofNat 0xA0 ||
  c = Char.ofNat 0x1680 || (0x2000 ≤ c.toNat && c.toNat ≤ 0x200A) ||
  c = Char.ofNat 0x2028 || c = Char.ofNat 0x2029 || c = Char.ofNat 0x202F ||
  c = Char.ofNat 0x205F || c = Char.ofNat 0x3000

/-- Go `strings.TrimSpace`: strips leading and trailing whitespace. -/
def trimSpace (s : Str) : Str :=
  ((s.dropWhile goIsSpace).reverse.dropWhile goIsSpace).reverse

/-- Go `strings.Split(s, ",")`: splits at every comma; the result is
never empty (splitting the empty string yields `[""]`). -/
def splitOnComma : Str → List Str
  | [] => [[]]
  | c :: rest =>
    if c = ',' then [] :: splitOnComma rest
    else
      match splitOnComma rest with
      | r :: rs => (c :: r) :: rs
      | [] => [[c]]

/-- Comma-join, the inverse of `splitOnComma` on comma-free fields
(used only in proofs, to describe the packed values). -/
def commaJoin : List Str → Str
  | [] => []
  | [t] => t
  | t :: ts => t ++ ',' :: commaJoin ts

/-- Go `strings.LastIndex(s, pat)`: byte index of the last occurrence
of `pat` in `s`, `-1` if there is none. -/
def lastIndex (s pat : Str) : Int :=
  match ((List.range (s.length + 1)).filter (fun i => pat.isPrefixOf (s.drop i))).getLast? with
  | some i => Int.ofNat i
  | none => -1

/-- Decimal digit character (`0 ≤ d ≤ 9`). -/
def digitChar (d : Nat) : Char :=
  match d with
  | 0 => '0' | 1 => '1' | 2 => '2' | 3 => '3' | 4 => '4'
  | 5 => '5' | 6 => '6' | 7 => '7' | 8 => '8' | 9 => '9'
  | _ => '*'

/-- Fuelled decimal rendering (structural recursion; the fuel only
needs to cover the number of digits). -/
def natCharsAux : Nat → Nat → Str
  | 0, _ => []
  | fuel + 1, n =>
    if n < 10 then [digitChar n]
    else natCharsAux fuel (n / 10) ++ [digitChar (n % 10)]

/-- Decimal rendering of a natural number, as produced by Go
`fmt.Sprintf("%d", n)` for the non-negative node indices used here
(`n + 1` units of fuel always suffice for the digits of `n`). -/
def natChars (n : Nat) : Str := natCharsAux (n + 1) n

/-! ## Data model (`sigs.k8s.io/external-dns/endpoint` and
`gophercloud` servers, restricted to the fields this engine reads) -/

/-- `endpoint.RecordTypeA`. -/
def recordTypeA : Str := ['A']

/-- An external-dns endpoint, restricted to the two fields the engine
reads (`DNSName`, `RecordType`); targets and TTL are never consulted by
the code under verification. -/
structure Endpoint where
  dnsName : Str
  recordType : Str
deriving DecidableEq

/-- An OpenStack server, restricted to the fields the engine reads:
`ID` (sort key and mutation target), `Name` (matched against Kubernetes
node names) and `Metadata` (a string map, modelled as an association
list with unique keys). -/
structure Server where
  id : Str
  name : Str
  metadata : List (Str × Str)
deriving DecidableEq

/-- Go map lookup `m[k]` on an association list. -/
def lookup (m : List (Str × Str)) (k : Str) : Option Str :=
  match m.find? (fun kv => kv.1 = k) with
  | some kv => some kv.2
  | none => none

/-! ## metadata.go -/

/-- `maxMetadataLength` constant. -/
def maxMetadataLength : Nat := 254

/-- `landbAliasPrefix` constant (`"landb-alias"`), the key family
shared by all metadata keys this engine owns. -/
def landbAliasPfx : Str := ['l','a','n','d','b','-','a','l','i','a','s']

/-- The `"--load-"` marker separating the DNS name from the node index
inside an alias token. -/
def loadMarker : Str := ['-','-','l','o','a','d','-']

/-- `getMetadataKey`: the `index`-th key of the family —
`landb-alias` for 1, `landb-alias2`, `landb-alias3`, … afterwards. -/
def getMetadataKey (index : Nat) : Str :=
  if index = 1 then landbAliasPfx else landbAliasPfx ++ natChars index

/-- One alias token, `fmt.Sprintf("%s--load-%d-", dnsName, nodeIndex)`
applied to the trailing-dot-trimmed DNS name, exactly as built inside
`GenerateMetadata`. -/
def aliasToken (nodeIndex : Nat) (dnsName : Str) : Str :=
  trimDot dnsName ++ loadMarker ++ natChars nodeIndex ++ ['-']

/-- The mutable state of the packing loop of `GenerateMetadata`:
the metadata written so far (in key order — the key indices written are
strictly increasing, so the association list has unique keys), the
current key index, the string builder and the `first` flag. -/
structure PackState where
  metadata : List (Str × Str)
  currentKeyIndex : Nat
  builder : Str
  first : Bool

/-- One iteration of the packing loop of `GenerateMetadata` over a
sorted alias: test whether appending (with a comma separator unless the
builder is fresh) would exceed `maxMetadataLength`; if so seal the
builder under the current key and start a fresh one; then append. -/
def packStep (st : PackState) (tok : Str) : PackState :=
  let potentialLen := st.builder.length + tok.length + (if st.first then 0 else 1)
  let st' : PackState :=
    if potentialLen > maxMetadataLength then
      { metadata := st.metadata ++ [(getMetadataKey st.currentKeyIndex, st.builder)],
        currentKeyIndex := st.currentKeyIndex + 1,
        builder := [],
        first := true }
    else st
  { st' with
    builder := st'.builder ++ (if st'.first then [] else [',']) ++ tok,
    first := false }

/-- The final flush after the packing loop: seal a non-empty builder
under the current key. -/
def packFinish (st : PackState) : List (Str × Str) :=
  if st.builder.length > 0 then
    st.metadata ++ [(getMetadataKey st.currentKeyIndex, st.builder)]
  else st.metadata

/-- `GenerateMetadata(nodeIndex, endpoints)`: collect one alias token
per A-record endpoint, sort them (`sort.Strings`, modelled as an
insertion sort producing the unique nondecreasing permutation under the
total antisymmetric byte order — the same result Go's sort produces),
and greedily pack them into the `landb-alias` key family under the
254-character value cap. -/
def GenerateMetadata (nodeIndex : Nat) (endpoints : List Endpoint) : List (Str × Str) :=
  let aliases := endpoints.filterMap fun ep =>
    if ep.recordType = recordTypeA then some (aliasToken nodeIndex ep.dnsName) else none
  let sorted := aliases.insertionSort fun a b => strLe a b = true
  packFinish (sorted.foldl packStep ⟨[], 1, [], true⟩)

/-- `DiffMetadata(current, desired)`: keys to upsert (present in
`desired` and absent-or-different in `current`) and keys to delete
(present in `current`, in the `landb-alias` key family, absent from
`desired`). -/
def DiffMetadata (current desired : List (Str × Str)) :
    List (Str × Str) × List Str :=
  let toUpdate := desired.foldl (fun acc kv =>
    match lookup current kv.1 with
    | some curVal => if curVal ≠ kv.2 then acc ++ [kv] else acc
    | none => acc ++ [kv]) []
  let toDelete := current.foldl (fun acc kv =>
    if landbAliasPfx.isPrefixOf kv.1 then
      match lookup desired kv.1 with
      | some _ => acc
      | none => acc ++ [kv.1]
    else acc) []
  (toUpdate, toDelete)

/-- The per-piece body of the decoding loop of
`ParseEndpointsFromMetadata`: trim whitespace, locate the last
`"--load-"` marker, and recover the DNS name before it (`none` when
the marker is absent — malformed tokens are dropped). -/
def pieceDomain (piece : Str) : Option Str :=
  let tok := trimSpace piece
  let idx := lastIndex tok loadMarker
  if idx = -1 then none else some (tok.take idx.toNat)

/-- Appending to the deduplicating accumulator (Go inserts into a
`map[string]struct{}`; we keep first-insertion order, which is
irrelevant to every set-level statement below). -/
def insertUnique (acc : List Str) (d : Str) : List Str :=
  if d ∈ acc then acc else acc ++ [d]

/-- The three nested collection loops of `ParseEndpointsFromMetadata`:
over nodes, over metadata entries whose key carries the `landb-alias`
key-family name, over the comma-separated pieces of the value. -/
def collectDomains (nodes : List Server) : List Str :=
  nodes.foldl (fun acc node =>
    node.metadata.foldl (fun acc kv =>
      if landbAliasPfx.isPrefixOf kv.1 then
        (splitOnComma kv.2).foldl (fun acc piece =>
          match pieceDomain piece with
          | some d => insertUnique acc d
          | none => acc) acc
      else acc) acc) []

/-- `ParseEndpointsFromMetadata(nodes)`: reconstruct the deduplicated
set of advertised DNS names from the `landb-alias` key family of all
nodes, as A-record endpoints (targets are left empty by the source and
are not modelled). -/
def ParseEndpointsFromMetadata (nodes : List Server) : List Endpoint :=
  (collectDomains nodes).map fun domain => ⟨domain, recordTypeA⟩

/-- `FilterServers(allServers, labelKey)`: with an empty key keep all
servers (the source copies the slice), otherwise keep the servers whose
metadata contains the key; then sort ascending by `ID`. Go `sort.Slice`
with the strict comparator `ID i < ID j` is modelled as a stable
insertion sort with the matching `≤` comparator: both guarantee exactly
a permutation of the input that is nondecreasing by `ID` (and on short
inputs Go's `sort.Slice` itself runs an insertion sort with the same
tie behaviour). -/
def FilterServers (allServers : List Server) (labelKey : Str) : List Server :=
  let filtered :=
    if labelKey = [] then allServers
    else allServers.filter fun server => (lookup server.metadata labelKey).isSome
  filtered.insertionSort fun a b => strLe a.id b.id = true

/-! ## manager.go — the state synchronizer

The two external mutation calls of `UpdateNodeMetadata`
(`servers.UpdateMetadata` and `servers.DeleteMetadatum`) are modelled by
an oracle deciding which calls succeed, plus an explicit log of the
calls actually issued, so that fail-fast behaviour is observable. -/

/-- One mutation call issued against the OpenStack compute API. -/
inductive Call where
  | upsert (serverID : Str) (m : List (Str × Str))
  | delete (serverID : Str) (key : Str)
deriving DecidableEq

/-- The error values `UpdateNodeMetadata` wraps and returns: which call
failed, with the offending server (and key) context attached. -/
inductive CernError where
  | updateMetadataFailed (serverID : Str)
  | deleteMetadatumFailed (serverID : Str) (key : Str)
deriving DecidableEq

/-- Success oracle for the external OpenStack mutation interface. -/
structure World where
  upsertOk : Str → List (Str × Str) → Bool
  deleteOk : Str → Str → Bool

/-- The deletion loop of `UpdateNodeMetadata`: delete each key in
order, aborting on the first failure. Returns the issued calls and the
error, if any. -/
def runDeletes (w : World) (serverID : Str) : List Str → List Call × Option CernError
  | [] => ([], none)
  | key :: rest =>
    if w.deleteOk serverID key then
      let r := runDeletes w serverID rest
      (Call.delete serverID key :: r.1, r.2)
    else ([Call.delete serverID key], some (.deleteMetadatumFailed serverID key))

/-- `UpdateNodeMetadata(serverID, toUpdate, toDelete)`: one
`UpdateMetadata` call when `toUpdate` is non-empty (aborting on
failure), then one `DeleteMetadatum` call per key of `toDelete`. -/
def UpdateNodeMetadata (w : World) (serverID : Str)
    (toUpdate : List (Str × Str)) (toDelete : List Str) :
    List Call × Option CernError :=
  if toUpdate.length > 0 then
    if w.upsertOk serverID toUpdate then
      let r := runDeletes w serverID toDelete
      (Call.upsert serverID toUpdate :: r.1, r.2)
    else ([Call.upsert serverID toUpdate], some (.updateMetadataFailed serverID))
  else runDeletes w serverID toDelete

/-- The body of the `SyncState` loop for the node at position `i`:
compute the desired metadata, diff against the node's live metadata,
and mutate unless the diff is empty. -/
def nodeOutcome (w : World) (endpoints : List Endpoint) (node : Server) (i : Nat) :
    List Call × Option CernError :=
  let desiredMetadata := GenerateMetadata i endpoints
  let d := DiffMetadata node.metadata desiredMetadata
  if d.1.length > 0 || d.2.length > 0 then
    UpdateNodeMetadata w node.id d.1 d.2
  else ([], none)

/-- The `SyncState` loop from position `i` onwards: process nodes in
order, returning on the first error. -/
def SyncStateAux (w : World) (endpoints : List Endpoint) :
    List Server → Nat → List Call × Option CernError
  | [], _ => ([], none)
  | node :: rest, i =>
    let r := nodeOutcome w endpoints node i
    match r.2 with
    | some err => (r.1, some err)
    | none =>
      let r' := SyncStateAux w endpoints rest (i + 1)
      (r.1 ++ r'.1, r'.2)

/-- `SyncState(nodes, endpoints)`: synchronize every node, in order,
starting at index 0. -/
def SyncState (w : World) (nodes : List Server) (endpoints : List Endpoint) :
    List Call × Option CernError :=
  SyncStateAux w endpoints nodes 0

/-- The happy path of `GetIngressNodes`: collect, page by page, the
active servers whose name is one of the Kubernetes ingress node names;
then call `FilterServers(matchingServers, "")` — whose result the
source discards (the Go implementation sorts a fresh copy, never its
argument slice) — and return `matchingServers`. -/
def GetIngressNodes (nodeNames : List Str) (serverPages : List (List Server)) :
    List Server :=
  let matchingServers := serverPages.foldl
    (fun acc page => acc ++ page.filter fun server => server.name ∈ nodeNames) []
  let _sorted := FilterServers matchingServers []
  matchingServers

/-! ## Proof-only definitions -/

/-- The non-empty comma-separated fields of a metadata value; on a
value packed from a run of non-empty comma-free tokens this recovers
exactly the run, and on the empty value it is empty. -/
def goodPieces (v : Str) : List Str :=
  (splitOnComma v).filter fun p => !p.isEmpty

/-- Flattened non-empty pieces of all values of a metadata list. -/
def allPieces (m : List (Str × Str)) : List Str :=
  m.flatMap fun kv => goodPieces kv.2

/-! ## Proof infrastructure: the lexicographic string order -/

theorem strLe_total (a b : Str) : strLe a b = true ∨ strLe b a = true := by
  induction a generalizing b with
  | nil => left; simp [strLe]
  | cons x xs ih =>
    cases b with
    | nil => right; simp [strLe]
    | cons y ys =>
      by_cases hxy : x < y
      · left; simp [strLe, hxy]
      · by_cases hyx : y < x
        · right; simp [strLe, hyx]
        · rcases ih ys with h | h
          · left; simp [strLe, hxy, hyx, h]
          · right; simp [strLe, hxy, hyx, h]

theorem strLe_trans (a b c : Str) (h1 : strLe a b = true) (h2 : strLe b c = true) :
    strLe a c = true := by
  induction a generalizing b c with
  | nil => simp [strLe]
  | cons x xs ih =>
    cases b with
    | nil => simp [strLe] at h1
    | cons y ys =>
      cases c with
      | nil => simp [strLe] at h2
      | cons z zs =>
        by_cases hxy : x < y
        · have hyz : y ≤ z := by
            by_contra hc
            simp [strLe, lt_of_not_le hc, asymm (lt_of_not_le hc)] at h2
          simp [strLe, lt_of_lt_of_le hxy hyz]
        · by_cases hyx : y < x
          · simp [strLe, hxy, hyx] at h1
          · have hxy' : x = y := le_antisymm (not_lt.mp hyx) (not_lt.mp hxy)
            subst hxy'
            simp only [strLe, hxy, hyx, if_false] at h1 ⊢
            by_cases hxz : x < z
            · simp [hxz]
            · by_cases hzx : z < x
              · simp [strLe, hxz, hzx] at h2
              · simp only [strLe, hxz, hzx, if_false] at h2 ⊢
                exact ih ys zs h1 h2

theorem strLe_antisymm (a b : Str) (h1 : strLe a b = true) (h2 : strLe b a = true) :
    a = b := by
  induction a generalizing b with
  | nil =>
    cases b with
    | nil => rfl
    | cons y ys => simp [strLe] at h2
  | cons x xs ih =>
    cases b with
    | nil => simp [strLe] at h1
    | cons y ys =>
      by_cases hxy : x < y
      · simp [strLe, hxy, asymm hxy] at h2
      · by_cases hyx : y < x
        · simp [strLe, hxy, hyx] at h1
        · have hxy' : x = y := le_antisymm (not_lt.mp hyx) (not_lt.mp hxy)
          simp only [strLe, hxy, hyx, if_false] at h1 h2
          rw [hxy', ih ys h1 h2]

/-- A permutation between two lists sorted by `le` is the identity, as
soon as `le` is antisymmetric on the elements involved. -/
theorem perm_sorted_unique {α : Type} (le : α → α → Bool) (l₁ l₂ : List α)
    (hanti : ∀ a ∈ l₁, ∀ b ∈ l₁, le a b = true → le b a = true → a = b)
    (hp : l₁.Perm l₂)
    (h₁ : l₁.Pairwise (fun a b => le a b = true))
    (h₂ : l₂.Pairwise (fun a b => le a b = true)) : l₁ = l₂ := by
  induction l₁ generalizing l₂ with
  | nil => exact hp.nil_eq
  | cons a t₁ ih =>
    cases l₂ with
    | nil => exact hp.symm.nil_eq.symm
    | cons b t₂ =>
      have hab : a = b := by
        by_cases h : a = b
        · exact h
        · have ha2 : a ∈ t₂ := by
            have := hp.mem_iff.mp (List.mem_cons_self a t₁)
            rcases List.mem_cons.mp this with h' | h'
            · exact absurd h' h
            · exact h'
          have hb1 : b ∈ t₁ := by
            have := hp.mem_iff.mpr (List.mem_cons_self b t₂)
            rcases List.mem_cons.mp this with h' | h'
            · exact absurd h'.symm h
            · exact h'
          exact hanti a (List.mem_cons_self a t₁) b (List.mem_cons_of_mem a hb1)
            ((List.pairwise_cons.mp h₁).1 b hb1)
            ((List.pairwise_cons.mp h₂).1 a ha2)
      subst hab
      have ht : t₁ = t₂ :=
        ih t₂ (fun x hx y hy => hanti x (List.mem_cons_of_mem a hx)
              y (List.mem_cons_of_mem a hy))
          hp.cons_inv (List.pairwise_cons.mp h₁).2 (List.pairwise_cons.mp h₂).2
      rw [ht]

/-! ## Proof infrastructure: decimal digits -/

theorem digitChar_isDigit (d : Nat) (h : d < 10) : (digitChar d).isDigit = true := by
  interval_cases d <;> decide

theorem natCharsAux_digits (fuel : Nat) :
    ∀ n, ∀ c ∈ natCharsAux fuel n, c.isDigit = true := by
  induction fuel with
  | zero => intro n c hc; cases hc
  | succ fuel ih =>
    intro n c hc
    rw [natCharsAux] at hc
    by_cases h : n < 10
    · rw [if_pos h] at hc
      rw [List.mem_singleton.mp hc]
      exact digitChar_isDigit n h
    · rw [if_neg h] at hc
      rcases List.mem_append.mp hc with h' | h'
      · exact ih (n / 10) c h'
      · rw [List.mem_singleton.mp h']
        exact digitChar_isDigit _ (Nat.mod_lt n (by omega))

theorem natChars_digits (n : Nat) : ∀ c ∈ natChars n, c.isDigit = true :=
  natCharsAux_digits (n + 1) n

theorem natChars_ne_nil (n : Nat) : natChars n ≠ [] := by
  unfold natChars natCharsAux
  by_cases h : n < 10 <;> simp [h]

theorem isDigit_beq_dash (c : Char) (h : c.isDigit = true) : ('-' == c) = false := by
  apply beq_eq_false_iff_ne.mpr
  intro heq
  rw [← heq] at h
  exact absurd h (by decide)

theorem isDigit_ne_comma (c : Char) (h : c.isDigit = true) : c ≠ ',' := by
  intro heq
  rw [heq] at h
  exact absurd h (by decide)

theorem isDigit_not_space (c : Char) (h : c.isDigit = true) : goIsSpace c = false := by
  have h48 : 48 ≤ c.toNat ∧ c.toNat ≤ 57 := by
    simp only [Char.isDigit, decide_eq_true_eq, Bool.and_eq_true] at h
    exact ⟨h.1, h.2⟩
  simp only [goIsSpace]
  have hv : 48 ≤ c.toNat ∧ c.toNat ≤ 57 := h48
  simp only [Bool.or_eq_false_iff, Bool.and_eq_false_iff, decide_eq_false_iff_not]
  refine ⟨⟨⟨⟨⟨⟨⟨⟨⟨⟨⟨⟨⟨⟨?_, ?_⟩, ?_⟩, ?_⟩, ?_⟩, ?_⟩, ?_⟩, ?_⟩, ?_⟩, ?_⟩, ?_⟩, ?_⟩, ?_⟩, ?_⟩, ?_⟩
  all_goals first
    | (intro heq; rw [heq] at hv; revert hv; decide)
    | (left; omega)

/-! ## Proof infrastructure: splitting and joining on commas -/

theorem splitOnComma_ne_nil (s : Str) : splitOnComma s ≠ [] := by
  cases s with
  | nil => simp [splitOnComma]
  | cons c rest =>
    simp only [splitOnComma]
    by_cases h : c = ','
    · simp [h]
    · simp only [h, if_false]
      cases splitOnComma rest <;> simp

theorem splitOnComma_comma_free (t : Str) (h : ',' ∉ t) : splitOnComma t = [t] := by
  induction t with
  | nil => rfl
  | cons c rest ih =>
    have hc : c ≠ ',' := fun he => h (he ▸ List.mem_cons_self c rest)
    have hr : ',' ∉ rest := fun hm => h (List.mem_cons_of_mem c hm)
    simp only [splitOnComma, hc, if_false, ih hr]

theorem splitOnComma_append_comma (t s : Str) (h : ',' ∉ t) :
    splitOnComma (t ++ ',' :: s) = t :: splitOnComma s := by
  induction t with
  | nil => simp [splitOnComma]
  | cons c rest ih =>
    have hc : c ≠ ',' := fun he => h (he ▸ List.mem_cons_self c rest)
    have hr : ',' ∉ rest := fun hm => h (List.mem_cons_of_mem c hm)
    simp only [List.cons_append, splitOnComma, hc, if_false, List.append_eq, ih hr]

theorem splitOnComma_commaJoin (r : List Str) (hne : r ≠ [])
    (hfree : ∀ t ∈ r, ',' ∉ t) : splitOnComma (commaJoin r) = r := by
  induction r with
  | nil => exact absurd rfl hne
  | cons t ts ih =>
    cases ts with
    | nil => exact splitOnComma_comma_free t (hfree t (List.mem_cons_self t []))
    | cons t' ts' =>
      have hj : commaJoin (t :: t' :: ts') = t ++ ',' :: commaJoin (t' :: ts') := rfl
      rw [hj, splitOnComma_append_comma t _ (hfree t (List.mem_cons_self t _)),
        ih (by simp) (fun x hx => hfree x (List.mem_cons_of_mem t hx))]

theorem commaJoin_append_single (r : List Str) (x : Str) (hne : r ≠ []) :
    commaJoin (r ++ [x]) = commaJoin r ++ ',' :: x := by
  induction r with
  | nil => exact absurd rfl hne
  | cons t ts ih =>
    cases ts with
    | nil => rfl
    | cons t' ts' =>
      have h1 : commaJoin ((t :: t' :: ts') ++ [x]) =
          t ++ ',' :: commaJoin ((t' :: ts') ++ [x]) := rfl
      rw [h1, ih (by simp)]
      simp [commaJoin]

theorem commaJoin_ne_nil (t : Str) (ts : List Str) (h : t ≠ []) :
    commaJoin (t :: ts) ≠ [] := by
  cases ts with
  | nil => simpa [commaJoin]
  | cons t' ts' =>
    have : commaJoin (t :: t' :: ts') = t ++ ',' :: commaJoin (t' :: ts') := rfl
    rw [this]
    simp

theorem goodPieces_commaJoin (r : List Str) (hne : ∀ t ∈ r, t ≠ [] ∧ ',' ∉ t) :
    goodPieces (commaJoin r) = r := by
  cases r with
  | nil => rfl
  | cons t ts =>
    unfold goodPieces
    rw [splitOnComma_commaJoin (t :: ts) (by simp) (fun x hx => (hne x hx).2)]
    apply List.filter_eq_self.mpr
    intro p hp
    simpa [List.isEmpty_iff] using (hne p hp).1

theorem mem_allPieces (m : List (Str × Str)) (p : Str) :
    p ∈ allPieces m ↔ ∃ kv ∈ m, p ∈ goodPieces kv.2 := by
  simp [allPieces]

/-! ## Proof infrastructure: folds that accumulate deduplicated names -/

theorem mem_insertUnique (acc : List Str) (x d : Str) :
    d ∈ insertUnique acc x ↔ d ∈ acc ∨ d = x := by
  unfold insertUnique
  by_cases h : x ∈ acc
  · simp only [h, if_true]
    constructor
    · exact Or.inl
    · rintro (h' | rfl) <;> [exact h'; exact h]
  · simp [h]

theorem nodup_insertUnique (acc : List Str) (x : Str) (h : acc.Nodup) :
    (insertUnique acc x).Nodup := by
  unfold insertUnique
  by_cases hx : x ∈ acc
  · simpa [hx]
  · simpa [hx] using List.Nodup.append h (List.nodup_singleton x)
      (fun a ha hax => hx ((List.mem_singleton.mp hax) ▸ ha))

theorem foldl_mem_iff {α β : Type} (g : List β → α → List β) (Q : α → β → Prop)
    (hg : ∀ acc x d, d ∈ g acc x ↔ d ∈ acc ∨ Q x d) (l : List α) :
    ∀ (acc : List β) (d : β), d ∈ l.foldl g acc ↔ d ∈ acc ∨ ∃ x ∈ l, Q x d := by
  induction l with
  | nil => intro acc d; simp
  | cons x l' ih =>
    intro acc d
    rw [List.foldl_cons, ih (g acc x) d, hg acc x d]
    constructor
    · rintro ((h | h) | ⟨x', hx', hq⟩)
      · exact Or.inl h
      · exact Or.inr ⟨x, List.mem_cons_self x l', h⟩
      · exact Or.inr ⟨x', List.mem_cons_of_mem x hx', hq⟩
    · rintro (h | ⟨x', hx', hq⟩)
      · exact Or.inl (Or.inl h)
      · rcases List.mem_cons.mp hx' with rfl | hx''
        · exact Or.inl (Or.inr hq)
        · exact Or.inr ⟨x', hx'', hq⟩

theorem foldl_nodup {α β : Type} (g : List β → α → List β)
    (hg : ∀ acc x, acc.Nodup → (g acc x).Nodup) (l : List α) :
    ∀ acc : List β, acc.Nodup → (l.foldl g acc).Nodup := by
  induction l with
  | nil => intro acc h; simpa
  | cons x l' ih => intro acc h; exact ih (g acc x) (hg acc x h)

/-! ## Proof infrastructure: the last occurrence of the load marker -/

theorem getLast?_filter_range (p : Nat → Bool) (n m : Nat) (hm : m ≤ n)
    (hpm : p m = true) (hafter : ∀ j, m < j → j ≤ n → p j = false) :
    ((List.range (n + 1)).filter p).getLast? = some m := by
  have hsplit : n + 1 = (m + 1) + (n - m) := by omega
  rw [hsplit, List.range_add]
  rw [List.filter_append]
  have h2 : ((List.range (n - m)).map ((m + 1) + ·)).filter p = [] := by
    apply List.filter_eq_nil_iff.mpr
    intro a ha
    rcases List.mem_map.mp ha with ⟨k, hk, rfl⟩
    have hkb : k < n - m := List.mem_range.mp hk
    simp [hafter (m + 1 + k) (by omega) (by omega)]
  rw [h2, List.append_nil]
  have h3 : List.range (m + 1) = List.range m ++ [m] := by
    rw [List.range_succ]
  rw [h3, List.filter_append]
  have h4 : [m].filter p = [m] := by simp [hpm]
  rw [h4, List.getLast?_concat]

theorem lastIndex_eq_of (s pat : Str) (m : Nat) (hm : m ≤ s.length)
    (h1 : pat.isPrefixOf (s.drop m) = true)
    (h2 : ∀ j, m < j → j ≤ s.length → pat.isPrefixOf (s.drop j) = false) :
    lastIndex s pat = Int.ofNat m := by
  unfold lastIndex
  rw [getLast?_filter_range (fun i => pat.isPrefixOf (s.drop i)) s.length m hm h1 h2]

/-- No occurrence of `"--load-"` inside a digit run followed by a
closing dash. -/
theorem marker_not_in_digits (ds : Str) (hd : ∀ c ∈ ds, c.isDigit = true) :
    ∀ j, loadMarker.isPrefixOf ((ds ++ ['-']).drop j) = false := by
  induction ds with
  | nil =>
    intro j
    cases j with
    | zero => rfl
    | succ j' => simp [List.drop_succ_cons, List.drop_nil, loadMarker, List.isPrefixOf]
  | cons d ds' ih =>
    intro j
    cases j with
    | zero =>
      show loadMarker.isPrefixOf (d :: (ds' ++ ['-'])) = false
      have : ('-' == d) = false :=
        isDigit_beq_dash d (hd d (List.mem_cons_self d ds'))
      simp [loadMarker, List.isPrefixOf, this]
    | succ j' =>
      show loadMarker.isPrefixOf ((ds' ++ ['-']).drop j') = false
      exact ih (fun c hc => hd c (List.mem_cons_of_mem d hc)) j'

/-- No occurrence of `"--load-"` strictly inside the suffix
`"--load-" ++ digits ++ "-"` after its start. -/
theorem marker_not_in_tail (ds : Str) (hne : ds ≠ [])
    (hd : ∀ c ∈ ds, c.isDigit = true) (k : Nat) :
    loadMarker.isPrefixOf ((loadMarker ++ ds ++ ['-']).drop (k + 1)) = false := by
  have hexp : loadMarker ++ ds ++ ['-'] =
      '-' :: '-' :: 'l' :: 'o' :: 'a' :: 'd' :: '-' :: (ds ++ ['-']) := by
    simp [loadMarker]
  rw [hexp]
  match k with
  | 0 => cases ds with
    | nil => exact absurd rfl hne
    | cons d ds' =>
      have : ('-' == 'l') = false := by decide
      simp [List.isPrefixOf, loadMarker]
  | 1 => simp [List.isPrefixOf, loadMarker]
  | 2 => simp [List.isPrefixOf, loadMarker]
  | 3 => simp [List.isPrefixOf, loadMarker]
  | 4 => simp [List.isPrefixOf, loadMarker]
  | 5 =>
    show loadMarker.isPrefixOf ('-' :: (ds ++ ['-'])) = false
    cases ds with
    | nil => exact absurd rfl hne
    | cons d ds' =>
      have hdd : ('-' == d) = false :=
        isDigit_beq_dash d (hd d (List.mem_cons_self d ds'))
      simp [loadMarker, List.isPrefixOf, hdd]
  | n + 6 =>
    show loadMarker.isPrefixOf ((ds ++ ['-']).drop n) = false
    exact marker_not_in_digits ds hd n

/-- In an alias token the last occurrence of `"--load-"` is exactly at
the end of the (trimmed) DNS name. -/
theorem lastIndex_aliasToken (i : Nat) (name : Str) :
    lastIndex (aliasToken i name) loadMarker = Int.ofNat (trimDot name).length := by
  set nm := trimDot name with hnm
  have hlen : nm.length ≤ (aliasToken i name).length := by
    simp [aliasToken, ← hnm]
  apply lastIndex_eq_of _ _ _ hlen
  · have : (aliasToken i name).drop nm.length = loadMarker ++ (natChars i ++ ['-']) := by
      unfold aliasToken
      rw [← hnm]
      simp only [List.append_assoc]
      rw [List.drop_left]
    rw [this]
    exact List.isPrefixOf_iff_prefix.mpr (List.prefix_append _ _)
  · intro j hj hjle
    obtain ⟨k, rfl⟩ : ∃ k, j = nm.length + (k + 1) := ⟨j - nm.length - 1, by omega⟩
    have hdrop : (aliasToken i name).drop (nm.length + (k + 1)) =
        (loadMarker ++ natChars i ++ ['-']).drop (k + 1) := by
      unfold aliasToken
      rw [← hnm, ← List.drop_drop]
      simp only [List.append_assoc]
      rw [List.drop_left]
    rw [hdrop]
    exact marker_not_in_tail (natChars i) (natChars_ne_nil i) (natChars_digits i) k

/-! ## Proof infrastructure: trimming -/

theorem trimSpace_eq_self (s : Str)
    (h1 : ∀ c, s.head? = some c → goIsSpace c = false)
    (h2 : ∀ c, s.getLast? = some c → goIsSpace c = false) : trimSpace s = s := by
  unfold trimSpace
  have hd : s.dropWhile goIsSpace = s := by
    cases s with
    | nil => rfl
    | cons c cs => rw [List.dropWhile_cons]; simp [h1 c rfl]
  rw [hd]
  have hl : s.reverse.dropWhile goIsSpace = s.reverse := by
    cases hr : s.reverse with
    | nil => rfl
    | cons c cs =>
      rw [List.dropWhile_cons]
      have hc : s.getLast? = some c := by
        rw [← List.head?_reverse, hr]; rfl
      simp [h2 c hc]
  rw [hl, List.reverse_reverse]

/-! ## Proof infrastructure: facts about a single alias token -/

theorem aliasToken_ne_nil (i : Nat) (name : Str) : aliasToken i name ≠ [] := by
  unfold aliasToken
  simp

theorem comma_not_mem_aliasToken (i : Nat) (name : Str) (h : ',' ∉ name) :
    ',' ∉ aliasToken i name := by
  unfold aliasToken
  intro hmem
  have hnm : ',' ∉ trimDot name := by
    unfold trimDot
    intro hm
    by_cases hc : name.getLast? = some '.'
    · exact h (List.dropLast_sublist name |>.mem (by simpa [hc] using hm))
    · exact h (by simpa [hc] using hm)
  rcases List.mem_append.mp hmem with h' | h'
  · rcases List.mem_append.mp h' with h'' | h''
    · rcases List.mem_append.mp h'' with h3 | h3
      · exact hnm h3
      · revert h3; decide
    · exact isDigit_ne_comma ',' (natChars_digits i ',' h'') rfl
  · revert h'; decide

theorem aliasToken_getLast (i : Nat) (name : Str) :
    (aliasToken i name).getLast? = some '-' := by
  unfold aliasToken
  simp

theorem aliasToken_head_not_space (i : Nat) (name : Str)
    (hw : (trimDot name).head?.all (fun c => !goIsSpace c) = true) :
    ∀ c, (aliasToken i name).head? = some c → goIsSpace c = false := by
  intro c hc
  unfold aliasToken at hc
  cases hn : trimDot name with
  | nil =>
    rw [hn] at hc
    simp only [List.nil_append, loadMarker] at hc
    cases hc
    decide
  | cons d nm' =>
    rw [hn] at hc
    simp only [List.cons_append, List.head?_cons, Option.some.injEq] at hc
    subst hc
    rw [hn] at hw
    simpa using hw

/-- `pieceDomain` on a well-formed alias token recovers exactly the
trimmed DNS name. -/
theorem pieceDomain_aliasToken (i : Nat) (name : Str)
    (hw : (trimDot name).head?.all (fun c => !goIsSpace c) = true) :
    pieceDomain (aliasToken i name) = some (trimDot name) := by
  unfold pieceDomain
  have htrim : trimSpace (aliasToken i name) = aliasToken i name :=
    trimSpace_eq_self _ (aliasToken_head_not_space i name hw)
      (fun c hc => by
        rw [aliasToken_getLast i name] at hc
        cases hc
        decide)
  have hne : (Int.ofNat (trimDot name).length) ≠ -1 := by
    intro hcon
    have hcon' : (((trimDot name).length : Nat) : Int) = -1 := hcon
    omega
  have ht : (Int.ofNat (trimDot name).length).toNat = (trimDot name).length := rfl
  simp only [pieceDomain, htrim, lastIndex_aliasToken i name, hne, if_false,
    ht, Option.some.injEq]
  unfold aliasToken
  simp only [List.append_assoc]
  rw [List.take_left]

theorem pieceDomain_nil : pieceDomain [] = none := by decide

/-! ## Proof infrastructure: invariants of the packing loop -/

theorem packStep_flush (st : PackState) (a : Str)
    (h : st.builder.length + a.length + (if st.first then 0 else 1) > maxMetadataLength) :
    packStep st a =
      { metadata := st.metadata ++ [(getMetadataKey st.currentKeyIndex, st.builder)],
        currentKeyIndex := st.currentKeyIndex + 1, builder := a, first := false } := by
  simp [packStep, h]

theorem packStep_noflush (st : PackState) (a : Str)
    (h : ¬(st.builder.length + a.length + (if st.first then 0 else 1) > maxMetadataLength)) :
    packStep st a =
      { st with builder := st.builder ++ (if st.first then [] else [',']) ++ a,
                first := false } := by
  simp [packStep, h]

theorem getMetadataKey_pfx (n : Nat) :
    landbAliasPfx.isPrefixOf (getMetadataKey n) = true := by
  unfold getMetadataKey
  split
  · exact List.isPrefixOf_iff_prefix.mpr (List.prefix_refl _)
  · exact List.isPrefixOf_iff_prefix.mpr (List.prefix_append _ _)

/-- Main invariant of the packing loop: the builder is the comma-join
of a pending run of tokens, and the non-empty pieces of the sealed
values followed by the pending run are exactly the tokens processed so
far. -/
theorem pack_pieces_aux (as : List Str) :
    ∀ (st : PackState) (pending : List Str),
      st.builder = commaJoin pending →
      (st.first = true ↔ pending = []) →
      (∀ t ∈ pending, t ≠ [] ∧ ',' ∉ t) →
      (∀ t ∈ as, t ≠ [] ∧ ',' ∉ t) →
      ∃ pending',
        (as.foldl packStep st).builder = commaJoin pending' ∧
        ((as.foldl packStep st).first = true ↔ pending' = []) ∧
        (∀ t ∈ pending', t ≠ [] ∧ ',' ∉ t) ∧
        allPieces (as.foldl packStep st).metadata ++ pending' =
          allPieces st.metadata ++ pending ++ as := by
  induction as with
  | nil =>
    intro st pending hb hf hp _
    exact ⟨pending, hb, hf, hp, by simp⟩
  | cons a as' ih =>
    intro st pending hb hf hp has
    have ha := has a (List.mem_cons_self a as')
    have has' : ∀ t ∈ as', t ≠ [] ∧ ',' ∉ t :=
      fun t ht => has t (List.mem_cons_of_mem a ht)
    rw [List.foldl_cons]
    by_cases hflush :
        st.builder.length + a.length + (if st.first then 0 else 1) > maxMetadataLength
    · rw [packStep_flush st a hflush]
      obtain ⟨pending', h1, h2, h3, h4⟩ := ih
        { metadata := st.metadata ++ [(getMetadataKey st.currentKeyIndex, st.builder)],
          currentKeyIndex := st.currentKeyIndex + 1, builder := a, first := false }
        [a] rfl (by simp)
        (fun t ht => (List.mem_singleton.mp ht) ▸ ha) has'
      refine ⟨pending', h1, h2, h3, ?_⟩
      rw [h4]
      have hseal : allPieces
          (st.metadata ++ [(getMetadataKey st.currentKeyIndex, st.builder)]) =
          allPieces st.metadata ++ pending := by
        unfold allPieces
        rw [List.flatMap_append]
        simp only [List.flatMap_cons, List.flatMap_nil, List.append_nil]
        rw [hb, goodPieces_commaJoin pending hp]
      rw [hseal]
      simp
    · rw [packStep_noflush st a hflush]
      have hbnew : st.builder ++ (if st.first then [] else [',']) ++ a =
          commaJoin (pending ++ [a]) := by
        cases hfi : st.first with
        | true =>
          have hpe : pending = [] := hf.mp hfi
          subst hpe
          rw [hb]
          rfl
        | false =>
          have hpne : pending ≠ [] := fun hpe => by
            rw [hf.mpr hpe] at hfi
            cases hfi
          rw [commaJoin_append_single pending a hpne, hb]
          simp
      obtain ⟨pending', h1, h2, h3, h4⟩ := ih
        { st with builder := st.builder ++ (if st.first then [] else [',']) ++ a,
                  first := false }
        (pending ++ [a]) hbnew (by simp)
        (fun t ht => by
          rcases List.mem_append.mp ht with h' | h'
          · exact hp t h'
          · exact (List.mem_singleton.mp h') ▸ ha)
        has'
      refine ⟨pending', h1, h2, h3, ?_⟩
      rw [h4]
      simp

/-- The pieces of `GenerateMetadata`-style packing recover exactly the
token list, in order. -/
theorem pack_pieces (as : List Str) (has : ∀ t ∈ as, t ≠ [] ∧ ',' ∉ t) :
    allPieces (packFinish (as.foldl packStep ⟨[], 1, [], true⟩)) = as := by
  obtain ⟨pending', h1, h2, h3, h4⟩ :=
    pack_pieces_aux as ⟨[], 1, [], true⟩ [] rfl (by simp) (by simp) has
  unfold packFinish
  by_cases hbl : (as.foldl packStep ⟨[], 1, [], true⟩).builder.length > 0
  · rw [if_pos hbl]
    unfold allPieces at h4 ⊢
    rw [List.flatMap_append]
    simp only [List.flatMap_cons, List.flatMap_nil, List.append_nil]
    rw [h1, goodPieces_commaJoin pending' h3]
    simpa using h4
  · rw [if_neg hbl]
    have hbe : (as.foldl packStep ⟨[], 1, [], true⟩).builder = [] :=
      List.length_eq_zero.mp (by omega)
    have hpe : pending' = [] := by
      cases hpc : pending' with
      | nil => rfl
      | cons t ts =>
        rw [hpc] at h1 h3
        exact absurd (hbe ▸ h1).symm
          (commaJoin_ne_nil t ts (h3 t (List.mem_cons_self t ts)).1)
    rw [hpe] at h4
    simpa using h4

/-- All sealed values stay within the cap as long as every token fits
within the cap. -/
theorem pack_len_aux (as : List Str) :
    ∀ st : PackState,
      (∀ t ∈ as, t.length ≤ maxMetadataLength) →
      st.builder.length ≤ maxMetadataLength →
      (∀ kv ∈ st.metadata, kv.2.length ≤ maxMetadataLength) →
      (as.foldl packStep st).builder.length ≤ maxMetadataLength ∧
        ∀ kv ∈ (as.foldl packStep st).metadata, kv.2.length ≤ maxMetadataLength := by
  induction as with
  | nil => intro st _ hb hm; exact ⟨hb, hm⟩
  | cons a as' ih =>
    intro st has hb hm
    have ha := has a (List.mem_cons_self a as')
    have has' : ∀ t ∈ as', t.length ≤ maxMetadataLength :=
      fun t ht => has t (List.mem_cons_of_mem a ht)
    rw [List.foldl_cons]
    by_cases hflush :
        st.builder.length + a.length + (if st.first then 0 else 1) > maxMetadataLength
    · rw [packStep_flush st a hflush]
      apply ih _ has' (by simpa using ha)
      intro kv hkv
      rcases List.mem_append.mp hkv with h' | h'
      · exact hm kv h'
      · rw [List.mem_singleton] at h'
        rw [h']
        exact hb
    · rw [packStep_noflush st a hflush]
      apply ih
      · exact has'
      · simp only [List.length_append]
        cases hfi : st.first <;> simp [hfi] at hflush ⊢ <;> omega
      · exact hm

/-- If some token exceeds the cap, some produced value exceeds the
cap (the oversized token is stored verbatim as a value). -/
theorem pack_oversized_aux (as : List Str) :
    ∀ st : PackState,
      ((∃ kv ∈ st.metadata, maxMetadataLength < kv.2.length) ∨
        maxMetadataLength < st.builder.length ∨
        ∃ t ∈ as, maxMetadataLength < t.length) →
      ∃ kv ∈ packFinish (as.foldl packStep st), maxMetadataLength < kv.2.length := by
  induction as with
  | nil =>
    intro st h
    rw [List.foldl_nil]
    rcases h with ⟨kv, hkv, hl⟩ | h | ⟨t, ht, _⟩
    · refine ⟨kv, ?_, hl⟩
      unfold packFinish
      split
      · exact List.mem_append_left _ hkv
      · exact hkv
    · refine ⟨(getMetadataKey st.currentKeyIndex, st.builder), ?_, h⟩
      unfold packFinish
      rw [if_pos (by omega)]
      exact List.mem_append_right _ (List.mem_singleton.mpr rfl)
    · cases ht
  | cons a as' ih =>
    intro st h
    rw [List.foldl_cons]
    apply ih
    by_cases hflush :
        st.builder.length + a.length + (if st.first then 0 else 1) > maxMetadataLength
    · rw [packStep_flush st a hflush]
      rcases h with ⟨kv, hkv, hl⟩ | hbl | ⟨t, ht, hlen⟩
      · exact Or.inl ⟨kv, List.mem_append_left _ hkv, hl⟩
      · exact Or.inl ⟨(getMetadataKey st.currentKeyIndex, st.builder),
          List.mem_append_right _ (List.mem_singleton.mpr rfl), hbl⟩
      · rcases List.mem_cons.mp ht with rfl | ht'
        · exact Or.inr (Or.inl (by simpa using hlen))
        · exact Or.inr (Or.inr ⟨t, ht', hlen⟩)
    · rw [packStep_noflush st a hflush]
      rcases h with ⟨kv, hkv, hl⟩ | hbl | ⟨t, ht, hlen⟩
      · exact Or.inl ⟨kv, hkv, hl⟩
      · -- impossible: an oversized builder always triggers a flush
        exfalso
        apply hflush
        cases hfi : st.first <;> simp [hfi] <;> omega
      · rcases List.mem_cons.mp ht with rfl | ht'
        · refine Or.inr (Or.inl ?_)
          simp only [List.length_append]
          omega
        · exact Or.inr (Or.inr ⟨t, ht', hlen⟩)

/-- Every key the packing loop writes carries the `landb-alias`
key-family name. -/
theorem pack_keys_aux (as : List Str) :
    ∀ st : PackState,
      (∀ kv ∈ st.metadata, landbAliasPfx.isPrefixOf kv.1 = true) →
      ∀ kv ∈ packFinish (as.foldl packStep st),
        landbAliasPfx.isPrefixOf kv.1 = true := by
  induction as with
  | nil =>
    intro st h kv hkv
    unfold packFinish at hkv
    split at hkv
    · rcases List.mem_append.mp hkv with h' | h'
      · exact h kv h'
      · rw [List.mem_singleton] at h'
        rw [h']
        exact getMetadataKey_pfx _
    · exact h kv hkv
  | cons a as' ih =>
    intro st h
    rw [List.foldl_cons]
    apply ih
    by_cases hflush :
        st.builder.length + a.length + (if st.first then 0 else 1) > maxMetadataLength
    · rw [packStep_flush st a hflush]
      intro kv hkv
      rcases List.mem_append.mp hkv with h' | h'
      · exact h kv h'
      · rw [List.mem_singleton] at h'
        rw [h']
        exact getMetadataKey_pfx _
    · rw [packStep_noflush st a hflush]
      exact h

/-! ## Proof infrastructure: characterizing the decoder -/

theorem mem_pieceFold (pieces : List Str) (acc : List Str) (d : Str) :
    d ∈ pieces.foldl (fun acc piece =>
        match pieceDomain piece with
        | some dd => insertUnique acc dd
        | none => acc) acc ↔
      d ∈ acc ∨ ∃ p ∈ pieces, pieceDomain p = some d := by
  apply foldl_mem_iff
  intro acc p d
  cases hp : pieceDomain p with
  | some dd =>
    simp only [hp, mem_insertUnique, Option.some.injEq]
    constructor
    · rintro (h | rfl)
      · exact Or.inl h
      · exact Or.inr rfl
    · rintro (h | rfl)
      · exact Or.inl h
      · exact Or.inr rfl
  | none => simp [hp]

theorem mem_kvFold (m : List (Str × Str)) (acc : List Str) (d : Str) :
    d ∈ m.foldl (fun acc kv =>
        if landbAliasPfx.isPrefixOf kv.1 then
          (splitOnComma kv.2).foldl (fun acc piece =>
            match pieceDomain piece with
            | some dd => insertUnique acc dd
            | none => acc) acc
        else acc) acc ↔
      d ∈ acc ∨ ∃ kv ∈ m, landbAliasPfx.isPrefixOf kv.1 = true ∧
        ∃ p ∈ splitOnComma kv.2, pieceDomain p = some d := by
  apply foldl_mem_iff
  intro acc kv d
  by_cases hk : landbAliasPfx.isPrefixOf kv.1 = true
  · simp only [hk, if_true]
    rw [mem_pieceFold]
    simp [hk]
  · simp [hk]

theorem mem_collectDomains (nodes : List Server) (d : Str) :
    d ∈ collectDomains nodes ↔
      ∃ node ∈ nodes, ∃ kv ∈ node.metadata,
        landbAliasPfx.isPrefixOf kv.1 = true ∧
        ∃ p ∈ splitOnComma kv.2, pieceDomain p = some d := by
  unfold collectDomains
  rw [foldl_mem_iff _
    (fun node d => ∃ kv ∈ node.metadata, landbAliasPfx.isPrefixOf kv.1 = true ∧
      ∃ p ∈ splitOnComma kv.2, pieceDomain p = some d)
    (fun acc node d => mem_kvFold node.metadata acc d) nodes [] d]
  simp

theorem nodup_collectDomains (nodes : List Server) :
    (collectDomains nodes).Nodup := by
  unfold collectDomains
  apply foldl_nodup _ _ nodes [] List.nodup_nil
  intro acc node hacc
  apply foldl_nodup _ _ node.metadata acc hacc
  intro acc' kv hacc'
  by_cases hk : landbAliasPfx.isPrefixOf kv.1 = true
  · simp only [hk, if_true]
    apply foldl_nodup _ _ (splitOnComma kv.2) acc' hacc'
    intro acc'' p hacc''
    cases hp : pieceDomain p with
    | some dd => simpa [hp] using nodup_insertUnique acc'' dd hacc''
    | none => simpa [hp] using hacc''
  · simpa [hk] using hacc'

theorem parse_map_dnsName (nodes : List Server) :
    (ParseEndpointsFromMetadata nodes).map Endpoint.dnsName = collectDomains nodes := by
  unfold ParseEndpointsFromMetadata
  rw [List.map_map]
  exact List.map_id _

/-! ## Proof infrastructure: map lookups -/

theorem lookup_cons (kv : Str × Str) (m : List (Str × Str)) (k : Str) :
    lookup (kv :: m) k = if kv.1 = k then some kv.2 else lookup m k := by
  unfold lookup
  by_cases hk : kv.1 = k
  · rw [List.find?_cons_of_pos _ (by simp [hk]), if_pos hk]
  · rw [List.find?_cons_of_neg _ (by simp [hk]), if_neg hk]

theorem lookup_eq_some_iff (m : List (Str × Str))
    (hm : (m.map Prod.fst).Nodup) (k v : Str) :
    lookup m k = some v ↔ (k, v) ∈ m := by
  induction m with
  | nil => simp [lookup]
  | cons kv m' ih =>
    rw [List.map_cons, List.nodup_cons] at hm
    rw [lookup_cons]
    by_cases hk : kv.1 = k
    · rw [if_pos hk]
      simp only [Option.some.injEq]
      constructor
      · intro hv
        have heq : (k, v) = kv := by
          cases kv
          simp_all
        rw [heq]
        exact List.mem_cons_self _ _
      · intro hmem
        rcases List.mem_cons.mp hmem with heq | hmem'
        · rw [← heq]
        · exact absurd (hk ▸ (List.mem_map.mpr ⟨(k, v), hmem', rfl⟩)) hm.1
    · rw [if_neg hk, ih hm.2]
      constructor
      · exact fun h => List.mem_cons_of_mem kv h
      · intro hmem
        rcases List.mem_cons.mp hmem with heq | hmem'
        · exact absurd (by rw [← heq]) hk
        · exact hmem'

theorem lookup_eq_none_iff (m : List (Str × Str)) (k : Str) :
    lookup m k = none ↔ ∀ v, (k, v) ∉ m := by
  induction m with
  | nil => simp [lookup]
  | cons kv m' ih =>
    rw [lookup_cons]
    by_cases hk : kv.1 = k
    · rw [if_pos hk]
      constructor
      · intro h; cases h
      · intro h
        exact absurd (List.mem_cons_self kv m') (by
          have : (k, kv.2) = kv := by
            cases kv; simp_all
          exact this ▸ h kv.2)
    · rw [if_neg hk, ih]
      constructor
      · intro h v hmem
        rcases List.mem_cons.mp hmem with heq | hmem'
        · exact hk (by rw [← heq])
        · exact h v hmem'
      · intro h v hmem
        exact h v (List.mem_cons_of_mem kv hmem)

theorem lookup_isSome_iff (m : List (Str × Str)) (k : Str) :
    (lookup m k).isSome = true ↔ ∃ v, (k, v) ∈ m := by
  cases hl : lookup m k with
  | some v =>
    simp only [Option.isSome_some, true_iff]
    -- from the find?-based definition, a successful lookup yields a member
    unfold lookup at hl
    cases hf : m.find? (fun kv => kv.1 = k) with
    | some kv =>
      rw [hf] at hl
      have hmem := List.mem_of_find?_eq_some hf
      have hkey : kv.1 = k := by simpa using List.find?_some hf
      cases hl
      exact ⟨kv.2, by rw [← hkey]; exact hmem⟩
    | none => rw [hf] at hl; cases hl
  | none =>
    simp only [Option.isSome_none, Bool.false_eq_true, false_iff]
    rintro ⟨v, hv⟩
    exact (lookup_eq_none_iff m k).mp hl v hv

/-! ## Proof infrastructure: characterizing the differ -/

theorem diff_toUpdate_mem (current desired : List (Str × Str)) (k v : Str) :
    (k, v) ∈ (DiffMetadata current desired).1 ↔
      ((k, v) ∈ desired ∧ lookup current k ≠ some v) := by
  have h := foldl_mem_iff
    (fun acc kv =>
      match lookup current kv.1 with
      | some curVal => if curVal ≠ kv.2 then acc ++ [kv] else acc
      | none => acc ++ [kv])
    (fun kv d => d = kv ∧ lookup current kv.1 ≠ some kv.2)
    (fun acc x d => by
      cases hl : lookup current x.1 with
      | some curVal =>
        by_cases hv : curVal ≠ x.2
        · simp [hl, hv, List.mem_append]
        · push_neg at hv
          simp [hl, hv]
      | none => simp [hl, List.mem_append])
    desired [] (k, v)
  unfold DiffMetadata
  simp only []
  rw [h]
  constructor
  · rintro (hmem | ⟨x, hx, rfl, hne⟩)
    · cases hmem
    · exact ⟨hx, hne⟩
  · rintro ⟨hmem, hne⟩
    exact Or.inr ⟨(k, v), hmem, rfl, hne⟩

theorem diff_toDelete_mem (current desired : List (Str × Str)) (k : Str) :
    k ∈ (DiffMetadata current desired).2 ↔
      ((∃ v, (k, v) ∈ current) ∧ landbAliasPfx.isPrefixOf k = true ∧
        lookup desired k = none) := by
  have h := foldl_mem_iff
    (fun acc kv =>
      if landbAliasPfx.isPrefixOf kv.1 then
        match lookup desired kv.1 with
        | some _ => acc
        | none => acc ++ [kv.1]
      else acc)
    (fun kv d => d = kv.1 ∧ landbAliasPfx.isPrefixOf kv.1 = true ∧
      lookup desired kv.1 = none)
    (fun acc x d => by
      by_cases hp : landbAliasPfx.isPrefixOf x.1 = true
      · cases hl : lookup desired x.1 with
        | some w => simp [hp, hl]
        | none => simp [hp, hl, List.mem_append]
      · simp [hp])
    current [] k
  unfold DiffMetadata
  simp only []
  rw [h]
  constructor
  · rintro (hmem | ⟨x, hx, rfl, hpfx, hnone⟩)
    · cases hmem
    · exact ⟨⟨x.2, by simpa using hx⟩, hpfx, hnone⟩
  · rintro ⟨⟨v, hv⟩, hpfx, hnone⟩
    exact Or.inr ⟨(k, v), hv, rfl, hpfx, hnone⟩

/-! ## Proof infrastructure: GenerateMetadata-level lemmas -/

theorem sorted_insertionSort_strLe (l : List Str) :
    (l.insertionSort fun a b => strLe a b = true).Pairwise
      (fun a b => strLe a b = true) :=
  @List.sorted_insertionSort Str (fun a b => strLe a b = true) _
    ⟨strLe_total⟩ ⟨fun a b c => strLe_trans a b c⟩ l

theorem sorted_insertionSort_byId (l : List Server) :
    (l.insertionSort fun a b => strLe a.id b.id = true).Pairwise
      (fun a b : Server => strLe a.id b.id = true) :=
  @List.sorted_insertionSort Server (fun a b => strLe a.id b.id = true) _
    ⟨fun a b => strLe_total a.id b.id⟩
    ⟨fun a b c hab hbc => strLe_trans a.id b.id c.id hab hbc⟩ l

theorem aliases_eq_map (i : Nat) (E : List Endpoint)
    (hA : ∀ e ∈ E, e.recordType = recordTypeA) :
    (E.filterMap fun ep =>
      if ep.recordType = recordTypeA then some (aliasToken i ep.dnsName) else none) =
    E.map fun ep => aliasToken i ep.dnsName := by
  induction E with
  | nil => rfl
  | cons e E' ih =>
    rw [List.filterMap_cons, List.map_cons]
    rw [if_pos (hA e (List.mem_cons_self e E'))]
    rw [ih (fun x hx => hA x (List.mem_cons_of_mem e hx))]

theorem generateMetadata_keys (i : Nat) (E : List Endpoint) :
    ∀ kv ∈ GenerateMetadata i E, landbAliasPfx.isPrefixOf kv.1 = true := by
  unfold GenerateMetadata
  exact pack_keys_aux _ _ (by simp)

/-- Membership of a decodable piece across the packed values is
membership of a token, for any token list that is non-empty and
comma-free tokenwise. -/
theorem mem_value_piece_iff (as : List Str) (has : ∀ t ∈ as, t ≠ [] ∧ ',' ∉ t)
    (d : Str) :
    (∃ kv ∈ packFinish (as.foldl packStep ⟨[], 1, [], true⟩),
        landbAliasPfx.isPrefixOf kv.1 = true ∧
        ∃ p ∈ splitOnComma kv.2, pieceDomain p = some d) ↔
      ∃ t ∈ as, pieceDomain t = some d := by
  have hpieces := pack_pieces as has
  constructor
  · rintro ⟨kv, hkv, -, p, hp, hpd⟩
    by_cases hpe : p = []
    · rw [hpe, pieceDomain_nil] at hpd
      cases hpd
    · have hgp : p ∈ goodPieces kv.2 :=
        List.mem_filter.mpr ⟨hp, by simpa [List.isEmpty_iff]⟩
      have hmem : p ∈ allPieces (packFinish (as.foldl packStep ⟨[], 1, [], true⟩)) :=
        (mem_allPieces _ p).mpr ⟨kv, hkv, hgp⟩
      rw [hpieces] at hmem
      exact ⟨p, hmem, hpd⟩
  · rintro ⟨t, ht, hpd⟩
    have hmem : t ∈ allPieces (packFinish (as.foldl packStep ⟨[], 1, [], true⟩)) := by
      rw [hpieces]
      exact ht
    obtain ⟨kv, hkv, hgp⟩ := (mem_allPieces _ t).mp hmem
    exact ⟨kv, hkv, pack_keys_aux as _ (by simp) kv hkv,
      t, List.mem_of_mem_filter hgp, hpd⟩

/-! ## Claim theorems -/

/-- C8: Encode determinism under permutation — for every node index
`i` and endpoint lists `E`, `E'` that are permutations of each other,
`GenerateMetadata i E` and `GenerateMetadata i E'` are equal (as
association lists, hence as maps with byte-identical values). -/
theorem c8_encode_deterministic (i : Nat) (E E' : List Endpoint)
    (hp : E.Perm E') : GenerateMetadata i E = GenerateMetadata i E' := by
  simp only [GenerateMetadata]
  have hperm : (E.filterMap fun ep =>
      if ep.recordType = recordTypeA then some (aliasToken i ep.dnsName) else none).Perm
      (E'.filterMap fun ep =>
      if ep.recordType = recordTypeA then some (aliasToken i ep.dnsName) else none) :=
    hp.filterMap _
  have hsorted :
      (E.filterMap fun ep =>
        if ep.recordType = recordTypeA then some (aliasToken i ep.dnsName)
        else none).insertionSort (fun a b => strLe a b = true) =
      (E'.filterMap fun ep =>
        if ep.recordType = recordTypeA then some (aliasToken i ep.dnsName)
        else none).insertionSort (fun a b => strLe a b = true) := by
    apply perm_sorted_unique strLe _ _ (fun a _ b _ => strLe_antisymm a b)
    · exact (List.perm_insertionSort _ _).trans
        (hperm.trans (List.perm_insertionSort _ _).symm)
    · exact sorted_insertionSort_strLe _
    · exact sorted_insertionSort_strLe _
  rw [hsorted]

/-- C8 witness: two concrete permuted endpoint lists encode to the
byte-identical metadata. -/
theorem c8_encode_deterministic_witness :
    GenerateMetadata 1
      [⟨('f' :: 'o' :: 'o' :: []), recordTypeA⟩, ⟨('b' :: 'a' :: 'r' :: []), recordTypeA⟩] =
    GenerateMetadata 1
      [⟨('b' :: 'a' :: 'r' :: []), recordTypeA⟩, ⟨('f' :: 'o' :: 'o' :: []), recordTypeA⟩] :=
  c8_encode_deterministic 1 _ _ (List.Perm.swap _ _ _)

/-- C1 (amended): round trip — for every node index `i` and endpoint
list `E` whose record kind is the address kind, whose DNS names contain
no commas, and whose DNS names (after stripping a single trailing dot)
do not begin with a whitespace character, decoding the metadata map
produced by `GenerateMetadata i E` on a single node yields exactly the
set of DNS names of `E`, deduplicated, with a single trailing dot
stripped. -/
theorem c1_round_trip_amended (i : Nat) (E : List Endpoint) (sid sname : Str)
    (hA : ∀ e ∈ E, e.recordType = recordTypeA)
    (hcomma : ∀ e ∈ E, ',' ∉ e.dnsName)
    (hws : ∀ e ∈ E, ((trimDot e.dnsName).head?.all fun c => !goIsSpace c) = true) :
    ((ParseEndpointsFromMetadata
        [⟨sid, sname, GenerateMetadata i E⟩]).map Endpoint.dnsName).Nodup ∧
    ∀ d : Str,
      d ∈ (ParseEndpointsFromMetadata
          [⟨sid, sname, GenerateMetadata i E⟩]).map Endpoint.dnsName ↔
        ∃ e ∈ E, d = trimDot e.dnsName := by
  rw [parse_map_dnsName]
  refine ⟨nodup_collectDomains _, fun d => ?_⟩
  rw [mem_collectDomains]
  have hsingle :
      (∃ node ∈ [(⟨sid, sname, GenerateMetadata i E⟩ : Server)],
        ∃ kv ∈ node.metadata, landbAliasPfx.isPrefixOf kv.1 = true ∧
          ∃ p ∈ splitOnComma kv.2, pieceDomain p = some d) ↔
      (∃ kv ∈ GenerateMetadata i E, landbAliasPfx.isPrefixOf kv.1 = true ∧
        ∃ p ∈ splitOnComma kv.2, pieceDomain p = some d) := by
    simp
  rw [hsingle]
  have hg : GenerateMetadata i E =
      packFinish (((E.map fun e => aliasToken i e.dnsName).insertionSort
        (fun a b => strLe a b = true)).foldl packStep ⟨[], 1, [], true⟩) := by
    simp only [GenerateMetadata]
    rw [aliases_eq_map i E hA]
  rw [hg]
  have htok_props :
      ∀ t ∈ (E.map fun e => aliasToken i e.dnsName).insertionSort
          (fun a b => strLe a b = true), t ≠ [] ∧ ',' ∉ t := by
    intro t ht
    have ht' : t ∈ E.map fun e => aliasToken i e.dnsName :=
      (List.perm_insertionSort _ _).mem_iff.mp ht
    obtain ⟨e, he, rfl⟩ := List.mem_map.mp ht'
    exact ⟨aliasToken_ne_nil i e.dnsName,
      comma_not_mem_aliasToken i e.dnsName (hcomma e he)⟩
  rw [mem_value_piece_iff _ htok_props d]
  constructor
  · rintro ⟨t, ht, hpd⟩
    have ht' : t ∈ E.map fun e => aliasToken i e.dnsName :=
      (List.perm_insertionSort _ _).mem_iff.mp ht
    obtain ⟨e, he, rfl⟩ := List.mem_map.mp ht'
    rw [pieceDomain_aliasToken i e.dnsName (hws e he)] at hpd
    exact ⟨e, he, (Option.some_inj.mp hpd).symm⟩
  · rintro ⟨e, he, rfl⟩
    refine ⟨aliasToken i e.dnsName, ?_,
      pieceDomain_aliasToken i e.dnsName (hws e he)⟩
    exact (List.perm_insertionSort _ _).mem_iff.mpr
      (List.mem_map.mpr ⟨e, he, rfl⟩)

/-- C1 counterexample: an A-record endpoint whose DNS name `" foo"`
starts with a space and contains no commas satisfies the claim's
hypotheses, yet the decoder trims the leading whitespace, so the round
trip returns `"foo"` instead of the DNS name `" foo"` of `E`. -/
theorem c1_round_trip_counterexample :
    (∀ e ∈ [(⟨[' ', 'f', 'o', 'o'], recordTypeA⟩ : Endpoint)],
      e.recordType = recordTypeA ∧ ',' ∉ e.dnsName) ∧
    (ParseEndpointsFromMetadata
        [⟨['1'], ['n'],
          GenerateMetadata 0 [⟨[' ', 'f', 'o', 'o'], recordTypeA⟩]⟩]).map
        Endpoint.dnsName = [['f', 'o', 'o']] ∧
    trimDot [' ', 'f', 'o', 'o'] = [' ', 'f', 'o', 'o'] ∧
    ([' ', 'f', 'o', 'o'] : Str) ≠ ['f', 'o', 'o'] := by decide

/-- C1 witness: the amended round trip at a concrete input containing
a trailing-dot variant and a duplicate after trimming. -/
theorem c1_round_trip_witness :
    ((∀ e ∈ [(⟨"foo.cern.ch.".toList, recordTypeA⟩ : Endpoint),
        ⟨"foo.cern.ch".toList, recordTypeA⟩, ⟨"bar.cern.ch".toList, recordTypeA⟩],
      e.recordType = recordTypeA) ∧
      ((ParseEndpointsFromMetadata
        [⟨['1'], ['n'], GenerateMetadata 0
          [⟨"foo.cern.ch.".toList, recordTypeA⟩,
           ⟨"foo.cern.ch".toList, recordTypeA⟩,
           ⟨"bar.cern.ch".toList, recordTypeA⟩]⟩]).map Endpoint.dnsName).Nodup) ∧
    ("foo.cern.ch".toList ∈ (ParseEndpointsFromMetadata
        [⟨['1'], ['n'], GenerateMetadata 0
          [⟨"foo.cern.ch.".toList, recordTypeA⟩,
           ⟨"foo.cern.ch".toList, recordTypeA⟩,
           ⟨"bar.cern.ch".toList, recordTypeA⟩]⟩]).map Endpoint.dnsName ↔
      ∃ e ∈ [(⟨"foo.cern.ch.".toList, recordTypeA⟩ : Endpoint),
        ⟨"foo.cern.ch".toList, recordTypeA⟩, ⟨"bar.cern.ch".toList, recordTypeA⟩],
        "foo.cern.ch".toList = trimDot e.dnsName) :=
  ⟨⟨by decide,
    (c1_round_trip_amended 0 _ ['1'] ['n'] (by decide) (by decide) (by decide)).1⟩,
    (c1_round_trip_amended 0 _ ['1'] ['n'] (by decide) (by decide) (by decide)).2 _⟩

set_option maxRecDepth 10000 in
/-- C3 counterexample: for an endpoint whose single alias token
exceeds 254 characters, `GenerateMetadata` produces a value longer
than 254 characters, refuting the unconditional packing bound. -/
theorem c3_packing_bound_counterexample :
    ∃ kv ∈ GenerateMetadata 0 [⟨List.replicate 250 'a', recordTypeA⟩],
      maxMetadataLength < kv.2.length := by decide

/-- C3 (amended): packing bound — for every node index `i` and
endpoint list `E` in which every single alias token fits within the
254-character cap, every value of `GenerateMetadata i E` has length at
most 254. -/
theorem c3_packing_bound_amended (i : Nat) (E : List Endpoint)
    (hlen : ∀ e ∈ E, e.recordType = recordTypeA →
      (aliasToken i e.dnsName).length ≤ maxMetadataLength) :
    ∀ kv ∈ GenerateMetadata i E, kv.2.length ≤ maxMetadataLength := by
  intro kv hkv
  simp only [GenerateMetadata] at hkv
  have htok : ∀ t ∈ (E.filterMap fun ep =>
      if ep.recordType = recordTypeA then some (aliasToken i ep.dnsName)
      else none).insertionSort (fun a b => strLe a b = true),
      t.length ≤ maxMetadataLength := by
    intro t ht
    have ht' := (List.perm_insertionSort _ _).mem_iff.mp ht
    obtain ⟨e, he, hfe⟩ := List.mem_filterMap.mp ht'
    by_cases hA : e.recordType = recordTypeA
    · rw [if_pos hA] at hfe
      cases Option.some_inj.mp hfe
      exact hlen e he hA
    · rw [if_neg hA] at hfe
      cases hfe
  have h := pack_len_aux _ ⟨[], 1, [], true⟩ htok (by simp) (by simp)
  revert hkv
  unfold packFinish
  split
  · intro hkv
    rcases List.mem_append.mp hkv with h' | h'
    · exact h.2 kv h'
    · rw [List.mem_singleton.mp h']
      exact h.1
  · intro hkv
    exact h.2 kv hkv

/-- C3 witness: the amended bound at a concrete in-cap input. -/
theorem c3_packing_bound_witness :
    (∀ e ∈ [(⟨"foo.cern.ch".toList, recordTypeA⟩ : Endpoint)],
      e.recordType = recordTypeA →
        (aliasToken 0 e.dnsName).length ≤ maxMetadataLength) ∧
    ∀ kv ∈ GenerateMetadata 0 [⟨"foo.cern.ch".toList, recordTypeA⟩],
      kv.2.length ≤ maxMetadataLength :=
  ⟨by decide, c3_packing_bound_amended 0 _ (by decide)⟩

set_option maxRecDepth 10000 in
/-- C7: encoding overflow is not surfaced as an error — on an input
whose single alias token exceeds the 254-character cap,
`GenerateMetadata` (a total function with no error channel) returns
normally, sealing the current key with the empty string and silently
storing the oversized token verbatim as a value longer than 254
characters. -/
theorem c7_encoding_overflow_no_error :
    GenerateMetadata 0 [⟨List.replicate 300 'b', recordTypeA⟩] =
      [(getMetadataKey 1, []),
        (getMetadataKey 2, aliasToken 0 (List.replicate 300 'b'))] ∧
    maxMetadataLength < (aliasToken 0 (List.replicate 300 'b')).length := by
  decide

/-- C10: oversized-token layout — for every node index `i` and single
A-record endpoint whose alias token alone exceeds the 254-character
cap, `GenerateMetadata` seals the first key of the family with the
empty string and stores the oversized token under the next key. -/
theorem c10_oversized_token_layout (i : Nat) (name : Str)
    (h : maxMetadataLength < (aliasToken i name).length) :
    GenerateMetadata i [⟨name, recordTypeA⟩] =
      [(getMetadataKey 1, []), (getMetadataKey 2, aliasToken i name)] := by
  simp only [GenerateMetadata]
  have h1 : ([(⟨name, recordTypeA⟩ : Endpoint)].filterMap fun ep =>
      if ep.recordType = recordTypeA then some (aliasToken i ep.dnsName)
      else none) = [aliasToken i name] := by simp
  rw [h1]
  have h2 : ([aliasToken i name].insertionSort fun a b => strLe a b = true) =
      [aliasToken i name] := rfl
  rw [h2, List.foldl_cons, List.foldl_nil]
  rw [packStep_flush _ _ (by simpa using h)]
  have hlen0 : 0 < (aliasToken i name).length := by omega
  simp [packFinish, hlen0]

set_option maxRecDepth 10000 in
/-- C10 witness: the layout at a concrete oversized input. -/
theorem c10_oversized_token_layout_witness :
    maxMetadataLength < (aliasToken 0 (List.replicate 250 'a')).length ∧
    GenerateMetadata 0 [⟨List.replicate 250 'a', recordTypeA⟩] =
      [(getMetadataKey 1, []),
        (getMetadataKey 2, aliasToken 0 (List.replicate 250 'a'))] :=
  ⟨by decide, c10_oversized_token_layout 0 _ (by decide)⟩

/-- C2: diff characterization and ownership — for every pair of
metadata maps, a key/value pair is upserted iff the key maps to that
value in `desired` and to something else (or nothing) in `current`; a
key is deleted iff it is present in `current`, carries the
`landb-alias` key-family name, and is absent from `desired`; in
particular no key lacking that name is ever deleted. (Key uniqueness
of `desired` — inherent to a Go map — is assumed; the `current` side
needs no such hypothesis.) -/
theorem c2_diff_characterization (current desired : List (Str × Str))
    (hd : (desired.map Prod.fst).Nodup) :
    (∀ k v, (k, v) ∈ (DiffMetadata current desired).1 ↔
        (lookup desired k = some v ∧ lookup current k ≠ some v)) ∧
    (∀ k, k ∈ (DiffMetadata current desired).2 ↔
        ((lookup current k).isSome = true ∧
          landbAliasPfx.isPrefixOf k = true ∧ lookup desired k = none)) ∧
    (∀ k ∈ (DiffMetadata current desired).2,
        landbAliasPfx.isPrefixOf k = true) := by
  refine ⟨fun k v => ?_, fun k => ?_, fun k hk => ?_⟩
  · rw [diff_toUpdate_mem, lookup_eq_some_iff desired hd]
  · rw [diff_toDelete_mem, lookup_isSome_iff]
  · exact ((diff_toDelete_mem current desired k).mp hk).2.1

/-- C2 witness: the characterization at the source's own "Ignore
non-landb keys" test vector. -/
theorem c2_diff_characterization_witness :
    (("landb-alias".toList, "bar".toList) ∈
        (DiffMetadata
          [("other".toList, "keepme".toList), ("landb-alias".toList, "foo".toList)]
          [("landb-alias".toList, "bar".toList)]).1 ↔
      (lookup [("landb-alias".toList, "bar".toList)] "landb-alias".toList =
          some "bar".toList ∧
        lookup [("other".toList, "keepme".toList),
          ("landb-alias".toList, "foo".toList)] "landb-alias".toList ≠
          some "bar".toList)) ∧
    ("other".toList ∈
        (DiffMetadata
          [("other".toList, "keepme".toList), ("landb-alias".toList, "foo".toList)]
          [("landb-alias".toList, "bar".toList)]).2 ↔
      ((lookup [("other".toList, "keepme".toList),
          ("landb-alias".toList, "foo".toList)] "other".toList).isSome = true ∧
        landbAliasPfx.isPrefixOf "other".toList = true ∧
        lookup [("landb-alias".toList, "bar".toList)] "other".toList = none)) :=
  ⟨(c2_diff_characterization
      [("other".toList, "keepme".toList), ("landb-alias".toList, "foo".toList)]
      [("landb-alias".toList, "bar".toList)] (by decide)).1 _ _,
    (c2_diff_characterization
      [("other".toList, "keepme".toList), ("landb-alias".toList, "foo".toList)]
      [("landb-alias".toList, "bar".toList)] (by decide)).2.1 _⟩

/-- C5: diff idempotence — for every metadata map `M` (keys unique, as
in any Go map), `DiffMetadata M M` returns an empty upsert map and an
empty delete list. -/
theorem c5_diff_idempotent (M : List (Str × Str))
    (hM : (M.map Prod.fst).Nodup) : DiffMetadata M M = ([], []) := by
  have h1 : ∀ kv, kv ∉ (DiffMetadata M M).1 := by
    rintro ⟨k, v⟩ hkv
    rw [diff_toUpdate_mem] at hkv
    exact hkv.2 ((lookup_eq_some_iff M hM k v).mpr hkv.1)
  have h2 : ∀ k, k ∉ (DiffMetadata M M).2 := by
    intro k hk
    rw [diff_toDelete_mem] at hk
    obtain ⟨⟨v, hv⟩, _, hnone⟩ := hk
    exact (lookup_eq_none_iff M k).mp hnone v hv
  exact Prod.ext (List.eq_nil_iff_forall_not_mem.mpr h1)
    (List.eq_nil_iff_forall_not_mem.mpr h2)

/-- C5 witness: idempotence at a concrete metadata map. -/
theorem c5_diff_idempotent_witness :
    DiffMetadata
      [("landb-alias".toList, "foo".toList), ("other".toList, "keepme".toList)]
      [("landb-alias".toList, "foo".toList), ("other".toList, "keepme".toList)] =
      ([], []) :=
  c5_diff_idempotent _ (by decide)

/-- C6 (amended): node ordering contract — `FilterServers` returns a
permutation of exactly the servers whose metadata contains the label
key (all servers when the key is empty), sorted nondecreasing by
identifier; and, provided the servers' identifiers are pairwise
distinct, the output is identical for any permutation of the input
list. -/
theorem c6_filter_servers_amended (labelKey : Str) (l l' : List Server) :
    (FilterServers l labelKey).Perm
      (if labelKey = [] then l
        else l.filter fun server => (lookup server.metadata labelKey).isSome) ∧
    (FilterServers l labelKey).Pairwise
      (fun a b : Server => strLe a.id b.id = true) ∧
    ((l.map Server.id).Nodup → l.Perm l' →
      FilterServers l labelKey = FilterServers l' labelKey) := by
  refine ⟨?_, ?_, ?_⟩
  · simp only [FilterServers]
    exact List.perm_insertionSort _ _
  · simp only [FilterServers]
    exact sorted_insertionSort_byId _
  · intro hnodup hp
    simp only [FilterServers]
    have hfperm :
        (if labelKey = [] then l
          else l.filter fun s => (lookup s.metadata labelKey).isSome).Perm
        (if labelKey = [] then l'
          else l'.filter fun s => (lookup s.metadata labelKey).isSome) := by
      by_cases hlab : labelKey = []
      · simpa [hlab] using hp
      · simpa [hlab] using hp.filter _
    have hmem_l : ∀ a, a ∈ ((if labelKey = [] then l
        else l.filter fun s => (lookup s.metadata labelKey).isSome).insertionSort
          fun a b => strLe a.id b.id = true) → a ∈ l := by
      intro a ha
      have h1 := (List.perm_insertionSort _ _).mem_iff.mp ha
      by_cases hlab : labelKey = []
      · rw [if_pos hlab] at h1
        exact h1
      · rw [if_neg hlab] at h1
        exact List.mem_of_mem_filter h1
    apply perm_sorted_unique (fun a b : Server => strLe a.id b.id)
    · intro a ha b hb hab hba
      exact List.inj_on_of_nodup_map hnodup (hmem_l a ha) (hmem_l b hb)
        (strLe_antisymm _ _ hab hba)
    · exact (List.perm_insertionSort _ _).trans
        (hfperm.trans (List.perm_insertionSort _ _).symm)
    · exact sorted_insertionSort_byId _
    · exact sorted_insertionSort_byId _

/-- C6 counterexample: two distinct servers sharing the identifier
`"i"` — the two input orders are permutations of each other
representing the same node set, yet `FilterServers` returns different
orders (ties are left in input order, as Go's insertion sort does on
short slices), refuting the unconditional permutation-determinism
conjunct. -/
theorem c6_filter_servers_counterexample :
    ([⟨['i'], ['a'], []⟩, ⟨['i'], ['b'], []⟩] : List Server).Perm
      [⟨['i'], ['b'], []⟩, ⟨['i'], ['a'], []⟩] ∧
    FilterServers [⟨['i'], ['a'], []⟩, ⟨['i'], ['b'], []⟩] [] ≠
      FilterServers [⟨['i'], ['b'], []⟩, ⟨['i'], ['a'], []⟩] [] := by
  constructor
  · exact List.Perm.swap _ _ _
  · decide

/-- C6 witness: with distinct identifiers, two permuted inputs filter
and sort to the identical output. -/
theorem c6_filter_servers_witness :
    FilterServers [⟨['2'], ['b'], []⟩, ⟨['1'], ['a'], []⟩] [] =
      FilterServers [⟨['1'], ['a'], []⟩, ⟨['2'], ['b'], []⟩] [] :=
  (c6_filter_servers_amended [] _ _).2.2 (by decide) (List.Perm.swap _ _ _)

/-! ## Proof infrastructure: unfolding the synchronizer loop -/

theorem syncStateAux_cons_some (w : World) (eps : List Endpoint)
    (node : Server) (rest : List Server) (k : Nat) (err : CernError)
    (h : (nodeOutcome w eps node k).2 = some err) :
    SyncStateAux w eps (node :: rest) k = ((nodeOutcome w eps node k).1, some err) := by
  simp only [SyncStateAux]
  rw [h]

theorem syncStateAux_cons_none (w : World) (eps : List Endpoint)
    (node : Server) (rest : List Server) (k : Nat)
    (h : (nodeOutcome w eps node k).2 = none) :
    SyncStateAux w eps (node :: rest) k =
      ((nodeOutcome w eps node k).1 ++ (SyncStateAux w eps rest (k + 1)).1,
        (SyncStateAux w eps rest (k + 1)).2) := by
  simp only [SyncStateAux]
  rw [h]

theorem syncStateAux_fail_fast (w : World) (endpoints : List Endpoint) :
    ∀ (nodes : List Server) (i k : Nat) (err : CernError) (h : i < nodes.length),
      (nodeOutcome w endpoints (nodes.get ⟨i, h⟩) (k + i)).2 = some err →
      (∀ j, (hj : j < i) →
        (nodeOutcome w endpoints (nodes.get ⟨j, by omega⟩) (k + j)).2 = none) →
      SyncStateAux w endpoints nodes k =
          SyncStateAux w endpoints (nodes.take (i + 1)) k ∧
        (SyncStateAux w endpoints nodes k).2 = some err := by
  intro nodes
  induction nodes with
  | nil =>
    intro i k err h
    exact absurd h (by simp)
  | cons node rest ih =>
    intro i k err h hfail hok
    cases i with
    | zero =>
      have hfail0 : (nodeOutcome w endpoints node k).2 = some err := by
        simpa using hfail
      constructor
      · rw [syncStateAux_cons_some w endpoints node rest k err hfail0]
        rw [show (node :: rest).take 1 = [node] from rfl]
        rw [syncStateAux_cons_some w endpoints node [] k err hfail0]
      · rw [syncStateAux_cons_some w endpoints node rest k err hfail0]
    | succ i' =>
      have h0 : (nodeOutcome w endpoints node k).2 = none := by
        have := hok 0 (by omega)
        simpa using this
      have h' : i' < rest.length := by
        simpa [Nat.succ_lt_succ_iff] using h
      have hfail' :
          (nodeOutcome w endpoints (rest.get ⟨i', h'⟩) ((k + 1) + i')).2 =
            some err := by
        have harith : k + (i' + 1) = (k + 1) + i' := by omega
        rw [← harith]
        exact hfail
      have hok' : ∀ j, (hj : j < i') →
          (nodeOutcome w endpoints (rest.get ⟨j, by omega⟩) ((k + 1) + j)).2 =
            none := by
        intro j hj
        have harith : k + (j + 1) = (k + 1) + j := by omega
        rw [← harith]
        exact hok (j + 1) (by omega)
      obtain ⟨he, h2⟩ := ih i' (k + 1) err h' hfail' hok'
      rw [List.take_succ_cons,
        syncStateAux_cons_none w endpoints node rest k h0,
        syncStateAux_cons_none w endpoints node (rest.take (i' + 1)) k h0,
        he]
      refine ⟨rfl, ?_⟩
      show (SyncStateAux w endpoints (rest.take (i' + 1)) (k + 1)).2 = some err
      rw [← he]
      exact h2

/-- C4: sync fail-fast with untouched remainder — for every oracle of
mutation outcomes, node list and endpoint set, if the nodes before
position `i` reconcile without error and the mutation call for the
node at position `i` fails with `err`, then `SyncState` returns `err`
and the whole run — the issued mutation calls included — is identical
to running on just the first `i + 1` nodes: no mutation is issued for
any node at a position greater than `i`. -/
theorem c4_sync_fail_fast (w : World) (endpoints : List Endpoint)
    (nodes : List Server) (i : Nat) (err : CernError) (h : i < nodes.length)
    (hfail : (nodeOutcome w endpoints (nodes.get ⟨i, h⟩) i).2 = some err)
    (hok : ∀ j, (hj : j < i) →
      (nodeOutcome w endpoints (nodes.get ⟨j, Nat.lt_trans hj h⟩) j).2 = none) :
    SyncState w nodes endpoints = SyncState w (nodes.take (i + 1)) endpoints ∧
    (SyncState w nodes endpoints).2 = some err := by
  unfold SyncState
  exact syncStateAux_fail_fast w endpoints nodes i 0 err h
    (by simpa using hfail) (fun j hj => by simpa using hok j hj)

/-- C4 witness: a world in which every upsert fails, two nodes with an
out-of-sync first node — the pass aborts on node 0 with the upsert
error and is identical to the pass over the first node alone. -/
theorem c4_sync_fail_fast_witness :
    SyncState ⟨fun _ _ => false, fun _ _ => true⟩
        [⟨"n1".toList, "a".toList, []⟩, ⟨"n2".toList, "b".toList, []⟩]
        [⟨"foo".toList, recordTypeA⟩] =
      SyncState ⟨fun _ _ => false, fun _ _ => true⟩
        ([⟨"n1".toList, "a".toList, []⟩, ⟨"n2".toList, "b".toList, []⟩].take 1)
        [⟨"foo".toList, recordTypeA⟩] ∧
    (SyncState ⟨fun _ _ => false, fun _ _ => true⟩
        [⟨"n1".toList, "a".toList, []⟩, ⟨"n2".toList, "b".toList, []⟩]
        [⟨"foo".toList, recordTypeA⟩]).2 =
      some (.updateMetadataFailed "n1".toList) :=
  c4_sync_fail_fast ⟨fun _ _ => false, fun _ _ => true⟩
    [⟨"foo".toList, recordTypeA⟩]
    [⟨"n1".toList, "a".toList, []⟩, ⟨"n2".toList, "b".toList, []⟩]
    0 (.updateMetadataFailed "n1".toList) (by decide) (by decide)
    (fun j hj => absurd hj (Nat.not_lt_zero j))

/-- Folding page-appends is page concatenation (shape of the pager
loop in `GetIngressNodes`). -/
theorem foldl_append_flatMap {α β : Type} (l : List α) (g : α → List β) :
    ∀ acc : List β, l.foldl (fun acc x => acc ++ g x) acc = acc ++ l.flatMap g := by
  induction l with
  | nil => intro acc; simp
  | cons x l' ih =>
    intro acc
    rw [List.foldl_cons, ih, List.flatMap_cons, List.append_assoc]

/-- C9: `GetIngressNodes` returns the matching servers in the order
produced by the paginated listing — the `FilterServers` result computed
on line 70 of manager.go is discarded (and `FilterServers` sorts a
fresh copy, never its argument) — and on some inputs that order differs
from the ascending-identifier order `FilterServers` would produce. -/
theorem c9_get_ingress_nodes_unsorted :
    (∀ (nodeNames : List Str) (serverPages : List (List Server)),
      GetIngressNodes nodeNames serverPages =
        serverPages.flatMap fun page =>
          page.filter fun server => server.name ∈ nodeNames) ∧
    ∃ (nodeNames : List Str) (serverPages : List (List Server)),
      GetIngressNodes nodeNames serverPages ≠
        FilterServers (GetIngressNodes nodeNames serverPages) [] := by
  constructor
  · intro nodeNames serverPages
    simp only [GetIngressNodes]
    rw [foldl_append_flatMap]
    simp
  · exact ⟨[['a'], ['b']], [[⟨['2'], ['b'], []⟩, ⟨['1'], ['a'], []⟩]], by decide⟩

end CernWebhook
